import Mathlib

/-!
Verification of the redis-populate scripts (`pop.py`, `count.py`,
`populate.py`) against their specification.

The key-value store is modelled as two maps from key to contents: one for
list-valued keys and one for set-valued keys (sets are kept as duplicate-free
lists in insertion order; `SADD` only ever tests membership).  Every store
command used by the scripts (`DELETE`, `RPUSH`, `SADD`) is embedded as a pure
state transformer, and each loader is the literal translation of the Python
control flow, batch structure included.
-/

/-- A parsed JSON value, as produced by `json.load`.  Objects keep their
fields in textual order (`jsonObjGet` below realises Python's
last-occurrence-wins dict semantics). -/
inductive Json where
  | null : Json
  | bool : Bool → Json
  | num : Int → Json
  | str : String → Json
  | arr : List Json → Json
  | obj : List (String × Json) → Json

/-- The key-value store: list-valued keys and set-valued keys.  A set is kept
as a duplicate-free list in insertion order. -/
structure Store where
  lists : String → List String
  sets : String → List String

/-- The store with no keys. -/
def Store.empty : Store := ⟨fun _ => [], fun _ => []⟩

/-- `DELETE key`: removes the key whatever its type. -/
def Store.del (s : Store) (k : String) : Store :=
  { lists := fun q => if q = k then [] else s.lists q,
    sets := fun q => if q = k then [] else s.sets q }

/-- `RPUSH key v`: appends `v` at the right end of the list at `key`. -/
def Store.rpush (s : Store) (k v : String) : Store :=
  { s with lists := fun q => if q = k then s.lists q ++ [v] else s.lists q }

/-- `SADD key v`: adds `v` to the set at `key`; returns `1` when `v` was
newly added and `0` when it was already a member. -/
def Store.sadd (s : Store) (k v : String) : Store × Nat :=
  if v ∈ s.sets k then (s, 0)
  else ({ s with sets := fun q => if q = k then s.sets q ++ [v] else s.sets q }, 1)

/-- Loop of `chunked` from `pop.py`: `batch` is the group accumulated so far;
a group is yielded as soon as its length reaches `size`, and a final
non-empty partial group is yielded when the input ends (`if batch: yield
batch`).  `size` is a Python `int`, so it is modelled as `Int`. -/
def chunkedAux {α : Type} (size : Int) : List α → List α → List (List α)
  | batch, [] => if batch.isEmpty then [] else [batch]
  | batch, item :: rest =>
    if ((batch ++ [item]).length : Int) ≥ size then
      (batch ++ [item]) :: chunkedAux size [] rest
    else
      chunkedAux size (batch ++ [item]) rest

/-- `chunked(iterable, size)` from `pop.py`, with the whole (finite) input
sequence materialised as a list. -/
def chunked {α : Type} (l : List α) (size : Int) : List (List α) :=
  chunkedAux size [] l

/-- Pushes every element of `l` onto the list at `k`, left to right (the body
of a pipelined batch of `RPUSH` commands). -/
def rpushAll (s : Store) (k : String) (l : List String) : Store :=
  l.foldl (fun st c => st.rpush k c) s

/-- `push_institutions` from `pop.py`: deletes the `institutions` key, then
appends every item batch by batch, summing the batch lengths into the
returned total. -/
def push_institutions (s : Store) (l : List String) (chunk_size : Int) : Store × Nat :=
  (chunked l chunk_size).foldl
    (fun acc batch => (rpushAll acc.1 "institutions" batch, acc.2 + batch.length))
    (s.del "institutions", 0)

/-- A pipelined batch of `SADD` commands against `k`, one per element of the
batch, in order; returns the final store and the list of `SADD` replies. -/
def saddBatch (s : Store) (k : String) : List String → Store × List Nat
  | [] => (s, [])
  | c :: rest =>
    let r1 := s.sadd k c
    let r2 := saddBatch r1.1 k rest
    (r2.1, r1.2 :: r2.2)

/-- `[c for c, res in zip(batch, sadd_results) if res]` from
`push_companies_deduped`: the elements whose `SADD` reply was non-zero, in
batch order (`zip` truncates to the shorter list). -/
def toPush : List String → List Nat → List String
  | c :: cs, r :: rs => if r ≠ 0 then c :: toPush cs rs else toPush cs rs
  | _, _ => []

/-- Batch loop of `push_companies_deduped`: for each batch, first all the
`SADD`s against `companies:set`, then an `RPUSH` to `companies` for exactly
the newly added elements, accumulating their count. -/
def pcdLoop (s : Store) (total : Nat) : List (List String) → Store × Nat
  | [] => (s, total)
  | batch :: rest =>
    let sr := saddBatch s "companies:set" batch
    let tp := toPush batch sr.2
    pcdLoop (rpushAll sr.1 "companies" tp) (total + tp.length) rest

/-- `push_companies_deduped` from `pop.py`: clears both `companies` and
`companies:set`, then runs the batch loop over the chunked input; returns the
final store and the count of newly added items. -/
def push_companies_deduped (s : Store) (l : List String) (chunk_size : Int) : Store × Nat :=
  pcdLoop ((s.del "companies").del "companies:set") 0 (chunked l chunk_size)

/-- Pure characterisation used in the proofs: the subsequence of `l` of items
not yet in `seen`, keeping only the first occurrence of each item, with
`seen` growing exactly as the `companies:set` key does. -/
def newItems (seen : List String) : List String → List String
  | [] => []
  | c :: rest => if c ∈ seen then newItems seen rest else c :: newItems (seen ++ [c]) rest

/-- Specification-level description of first-occurrence deduplication: the
head of the list is kept and every later duplicate of it is filtered out,
recursively, so each distinct item survives exactly once, at the position of
its first occurrence. -/
def firstOccurrences : List String → List String
  | [] => []
  | x :: rest => x :: firstOccurrences (rest.filter fun y => decide (y ≠ x))
termination_by l => l.length
decreasing_by
  simp only [List.length_cons]
  exact Nat.lt_succ_of_le (List.length_filter_le _ _)

/-- `list(dict.fromkeys(l))` from `populate.py`: inserts the elements in
order into an insertion-ordered dict, a later duplicate leaving the dict
unchanged, and lists the keys. -/
def dictFromKeys (l : List String) : List String :=
  l.foldl (fun acc x => if x ∈ acc then acc else acc ++ [x]) []

/-- The printed counts and final store of the `populate.py` script. -/
structure PopulateOutput where
  store : Store
  printedDegrees : Nat
  printedInstitutions : Nat
  printedRoles : Nat
  printedCompanies : Nat

/-- The module-level `populate.py` script, as a function of the four array
fields of `data.json`: merges institutions into companies via
`dict.fromkeys`, deletes the four destination keys, pushes the four lists,
and prints the four lengths (the company count is taken after the merge). -/
def populate_script (s : Store) (degrees institutions roles companies : List String) :
    PopulateOutput :=
  let merged := dictFromKeys (companies ++ institutions)
  let s1 := (((s.del "degrees").del "institutions").del "roles").del "companies"
  let s2 := rpushAll s1 "degrees" degrees
  let s3 := rpushAll s2 "institutions" institutions
  let s4 := rpushAll s3 "roles" roles
  let s5 := rpushAll s4 "companies" merged
  ⟨s5, degrees.length, institutions.length, roles.length, merged.length⟩

/-- Python dict lookup for a parsed JSON object: the value of the last field
named `key`, since `json.load` lets a later duplicate key overwrite an
earlier one. -/
def jsonObjGet (key : String) : List (String × Json) → Option Json
  | [] => none
  | (k, v) :: rest =>
    match jsonObjGet key rest with
    | some w => some w
    | none => if k = key then some v else none

/-- `load_list_from_json` from `pop.py` (fallback reader), applied to the
parsed document: returns `data[key]` when the document is an object holding a
list at `key`, and `[]` otherwise. -/
def load_list_from_json (data : Json) (key : String) : List Json :=
  match data with
  | .obj fields =>
    match jsonObjGet key fields with
    | some (.arr xs) => xs
    | _ => []
  | _ => []

/-- The elements of a JSON array, and `[]` for any non-array value. -/
def arrItems : Json → List Json
  | .arr xs => xs
  | _ => []

/-- Modelled from the spec: the items the ijson streaming parser emits for
the prefix `key + ".item"` over a top-level object — the elements, in order,
of every array stored under a field named `key` (the `ijson` library itself
is not part of this repository; the spec says streaming mode "incrementally
parses only the array at `field`, yielding each element"). -/
def ijsonFieldItems (key : String) : List (String × Json) → List Json
  | [] => []
  | (k, v) :: rest =>
    (if k = key then arrItems v else []) ++ ijsonFieldItems key rest

/-- Modelled from the spec: `stream_array_with_ijson` from `pop.py`, applied
to the parsed document — streams the items at prefix `key + ".item"`. -/
def stream_array_with_ijson (data : Json) (key : String) : List Json :=
  match data with
  | .obj fields => ijsonFieldItems key fields
  | _ => []

/-- `count_objects_in_file` from `count.py`, applied to the outcome of
reading and parsing the file: returns the count together with the printed
error messages.  A read/parse failure is reported and counted as `0`; a
top-level array counts its length, an object counts `1`, anything else `0`. -/
def count_objects_in_file (path : String) : Except String Json → Nat × List String
  | .error e => (0, ["Error reading " ++ path ++ ": " ++ e])
  | .ok (.arr xs) => (xs.length, [])
  | .ok (.obj _) => (1, [])
  | .ok _ => (0, [])

/-- Outcome of an aborted command-line run: the printed messages and the
process exit status. -/
structure CliOutcome where
  messages : List String
  exitCode : Nat

/-- The input-file check at the top of `main` in `pop.py`: when the path is
not a file it prints `Input file not found: ...` and raises `SystemExit(2)`,
so the process exits with status `2`; otherwise the run continues (`none`). -/
def pop_main_filecheck (pathIsFile : Bool) (path : String) : Option CliOutcome :=
  if pathIsFile then none
  else some ⟨["Input file not found: " ++ path], 2⟩

/-- The input-file check in `main` of `count.py`: when the path is not a
file it prints `File not found: ...` and returns from `main` normally, so the
process exits with status `0`; otherwise the run continues (`none`). -/
def count_main_filecheck (pathIsFile : Bool) (path : String) : Option CliOutcome :=
  if pathIsFile then none
  else some ⟨["File not found: " ++ path], 0⟩

/-! ### Store command lemmas -/

lemma lists_del (s : Store) (k q : String) :
    (s.del k).lists q = if q = k then [] else s.lists q := rfl

lemma sets_del (s : Store) (k q : String) :
    (s.del k).sets q = if q = k then [] else s.sets q := rfl

lemma lists_rpush (s : Store) (k v q : String) :
    (s.rpush k v).lists q = if q = k then s.lists q ++ [v] else s.lists q := rfl

lemma sets_rpush (s : Store) (k v : String) : (s.rpush k v).sets = s.sets := rfl

lemma lists_rpushAll (s : Store) (k : String) (l : List String) (q : String) :
    (rpushAll s k l).lists q = if q = k then s.lists q ++ l else s.lists q := by
  induction l generalizing s with
  | nil => simp [rpushAll]
  | cons c rest ih =>
    show (rpushAll (s.rpush k c) k rest).lists q = _
    rw [ih]
    by_cases h : q = k <;> simp [h, lists_rpush]

lemma sets_rpushAll (s : Store) (k : String) (l : List String) :
    (rpushAll s k l).sets = s.sets := by
  induction l generalizing s with
  | nil => rfl
  | cons c rest ih =>
    show (rpushAll (s.rpush k c) k rest).sets = _
    rw [ih, sets_rpush]

/-! ### Batcher lemmas -/

lemma chunkedAux_flatten {α : Type} (n : Int) (l : List α) :
    ∀ batch : List α, (chunkedAux n batch l).flatten = batch ++ l := by
  induction l with
  | nil =>
    intro batch
    by_cases h : batch.isEmpty
    · simp [chunkedAux, h, List.isEmpty_iff.mp h]
    · simp [chunkedAux, h]
  | cons item rest ih =>
    intro batch
    simp only [chunkedAux]
    by_cases h : ((batch ++ [item]).length : Int) ≥ n
    · rw [if_pos h]
      simp [ih]
    · rw [if_neg h]
      simp [ih]

lemma chunked_flatten {α : Type} (l : List α) (n : Int) :
    (chunked l n).flatten = l := by
  simpa using chunkedAux_flatten n l []

lemma chunkedAux_batches {α : Type} (n : Int) (l : List α) :
    ∀ batch : List α, ((batch.length : Int) < n) →
      ∀ b ∈ chunkedAux n batch l, b ≠ [] ∧ (b.length : Int) ≤ n := by
  induction l with
  | nil =>
    intro batch hlt b hb
    by_cases h : batch.isEmpty
    · simp [chunkedAux, h] at hb
    · simp only [chunkedAux, h, if_neg, Bool.not_eq_true, List.mem_singleton] at hb
      subst hb
      exact ⟨fun hnil => by simp [hnil] at h, le_of_lt hlt⟩
  | cons item rest ih =>
    intro batch hlt b hb
    simp only [chunkedAux] at hb
    by_cases h : ((batch ++ [item]).length : Int) ≥ n
    · rw [if_pos h] at hb
      rcases List.mem_cons.mp hb with h1 | h1
      · subst h1
        refine ⟨by simp, ?_⟩
        have : ((batch ++ [item]).length : Int) = (batch.length : Int) + 1 := by
          simp
        omega
      · have hn : ((([] : List α).length : Int) < n) := by
          simp only [List.length_nil, Int.ofNat_zero]
          omega
        exact ih [] hn b h1
    · rw [if_neg h] at hb
      have : ((batch ++ [item]).length : Int) < n := by omega
      exact ih (batch ++ [item]) this b hb

lemma chunkedAux_nonpos {α : Type} (n : Int) (hn : n ≤ 0) (l : List α) :
    chunkedAux n [] l = l.map (fun x => [x]) := by
  induction l with
  | nil => rfl
  | cons x rest ih =>
    simp only [chunkedAux]
    have h : ((([] : List α) ++ [x]).length : Int) ≥ n := by
      simp only [List.nil_append, List.length_singleton]
      omega
    rw [if_pos h]
    simp [ih]

/-! ### Properties of `newItems` -/

lemma newItems_mem (x : String) (l : List String) :
    ∀ seen : List String, x ∈ newItems seen l ↔ x ∈ l ∧ x ∉ seen := by
  induction l with
  | nil => intro seen; simp [newItems]
  | cons c rest ih =>
    intro seen
    by_cases hc : c ∈ seen
    · rw [newItems, if_pos hc, ih]
      constructor
      · rintro ⟨h1, h2⟩
        exact ⟨List.mem_cons_of_mem _ h1, h2⟩
      · rintro ⟨h1, h2⟩
        rcases List.mem_cons.mp h1 with h3 | h3
        · exact absurd (h3 ▸ hc) h2
        · exact ⟨h3, h2⟩
    · rw [newItems, if_neg hc]
      by_cases hx : x = c
      · subst hx
        simp [hc]
      · simp only [List.mem_cons, hx, false_or]
        rw [ih]
        simp [List.mem_append, hx]

lemma newItems_nodup (l : List String) :
    ∀ seen : List String, (newItems seen l).Nodup := by
  induction l with
  | nil => intro seen; simp [newItems]
  | cons c rest ih =>
    intro seen
    by_cases hc : c ∈ seen
    · rw [newItems, if_pos hc]; exact ih seen
    · rw [newItems, if_neg hc]
      refine List.nodup_cons.mpr ⟨?_, ih (seen ++ [c])⟩
      intro hmem
      have := (newItems_mem c rest (seen ++ [c])).mp hmem
      exact this.2 (by simp)

lemma newItems_congr (l : List String) :
    ∀ s1 s2 : List String, (∀ x, x ∈ s1 ↔ x ∈ s2) → newItems s1 l = newItems s2 l := by
  induction l with
  | nil => intro s1 s2 _; rfl
  | cons c rest ih =>
    intro s1 s2 h
    by_cases hc : c ∈ s1
    · rw [newItems, if_pos hc, newItems, if_pos ((h c).mp hc)]
      exact ih s1 s2 h
    · rw [newItems, if_neg hc, newItems, if_neg (fun hm => hc ((h c).mpr hm))]
      refine congrArg (c :: ·) (ih _ _ ?_)
      intro x
      simp [List.mem_append, h x]

lemma newItems_cons (seen : List String) (c : String) (rest : List String) :
    newItems seen (c :: rest)
      = if c ∈ seen then newItems seen rest else c :: newItems (seen ++ [c]) rest := rfl

lemma newItems_append (b : List String) (a : List String) :
    ∀ seen : List String,
      newItems seen (a ++ b) = newItems seen a ++ newItems (seen ++ newItems seen a) b := by
  induction a with
  | nil => intro seen; simp [newItems]
  | cons c a' ih =>
    intro seen
    by_cases hc : c ∈ seen
    · simp only [List.cons_append, newItems_cons, if_pos hc]
      exact ih seen
    · simp only [List.cons_append, newItems_cons, if_neg hc]
      rw [ih (seen ++ [c])]
      simp [List.append_assoc]

lemma newItems_filter (c : String) (l : List String) :
    ∀ seen : List String,
      newItems (seen ++ [c]) l = newItems seen (l.filter fun y => decide (y ≠ c)) := by
  induction l with
  | nil => intro seen; rfl
  | cons d rest ih =>
    intro seen
    by_cases hdc : d = c
    · subst hdc
      have hmem : d ∈ seen ++ [d] := by simp
      have hfilter : List.filter (fun y => decide (y ≠ d)) (d :: rest)
          = List.filter (fun y => decide (y ≠ d)) rest := by
        simp [List.filter_cons]
      rw [newItems_cons, if_pos hmem, hfilter]
      exact ih seen
    · by_cases hds : d ∈ seen
      · have hmem : d ∈ seen ++ [c] := List.mem_append_left _ hds
        have hfilter : (List.filter (fun y => decide (y ≠ c)) (d :: rest))
            = d :: List.filter (fun y => decide (y ≠ c)) rest := by
          simp [List.filter_cons, hdc]
        rw [newItems_cons, if_pos hmem, hfilter, newItems_cons, if_pos hds]
        exact ih seen
      · have hmem : d ∉ seen ++ [c] := by
          simp [List.mem_append, hds, hdc]
        have hfilter : (List.filter (fun y => decide (y ≠ c)) (d :: rest))
            = d :: List.filter (fun y => decide (y ≠ c)) rest := by
          simp [List.filter_cons, hdc]
        rw [newItems_cons, if_neg hmem, hfilter, newItems_cons, if_neg hds]
        refine congrArg (d :: ·) ?_
        calc newItems (seen ++ [c] ++ [d]) rest
            = newItems (seen ++ [d] ++ [c]) rest := by
              refine newItems_congr rest _ _ ?_
              intro x
              simp only [List.mem_append, List.mem_singleton]
              tauto
          _ = newItems (seen ++ [d]) (rest.filter fun y => decide (y ≠ c)) := ih (seen ++ [d])

/-! ### `SADD` batch lemmas -/

lemma sadd_lists (s : Store) (k v : String) : ((s.sadd k v).1).lists = s.lists := by
  unfold Store.sadd
  by_cases h : v ∈ s.sets k
  · rw [if_pos h]
  · rw [if_neg h]

lemma saddBatch_lists (k : String) (batch : List String) :
    ∀ s : Store, ((saddBatch s k batch).1).lists = s.lists := by
  induction batch with
  | nil => intro s; rfl
  | cons c rest ih =>
    intro s
    show ((saddBatch (s.sadd k c).1 k rest).1).lists = s.lists
    rw [ih, sadd_lists]

lemma saddBatch_sets (k : String) (batch : List String) :
    ∀ (s : Store) (q : String),
      ((saddBatch s k batch).1).sets q
        = if q = k then s.sets q ++ newItems (s.sets k) batch else s.sets q := by
  induction batch with
  | nil => intro s q; by_cases h : q = k <;> simp [saddBatch, newItems, h]
  | cons c rest ih =>
    intro s q
    show ((saddBatch (s.sadd k c).1 k rest).1).sets q = _
    by_cases hc : c ∈ s.sets k
    · rw [ih]
      unfold Store.sadd
      rw [if_pos hc, newItems_cons, if_pos hc]
    · rw [ih]
      unfold Store.sadd
      rw [if_neg hc]
      simp only
      rw [newItems_cons, if_neg hc]
      by_cases hq : q = k
      · subst hq
        simp [List.append_assoc]
      · simp [hq]

lemma saddBatch_toPush (k : String) (batch : List String) :
    ∀ s : Store, toPush batch (saddBatch s k batch).2 = newItems (s.sets k) batch := by
  induction batch with
  | nil => intro s; rfl
  | cons c rest ih =>
    intro s
    show toPush (c :: rest) ((s.sadd k c).2 :: (saddBatch (s.sadd k c).1 k rest).2) = _
    by_cases hc : c ∈ s.sets k
    · have h1 : (s.sadd k c) = (s, 0) := by unfold Store.sadd; rw [if_pos hc]
      rw [h1]
      show toPush (c :: rest) (0 :: (saddBatch s k rest).2) = _
      rw [newItems_cons, if_pos hc]
      show (if (0 : Nat) ≠ 0 then _ else toPush rest (saddBatch s k rest).2) = _
      rw [if_neg (by decide)]
      exact ih s
    · have h2 : (s.sadd k c).2 = 1 := by unfold Store.sadd; rw [if_neg hc]
      have h3 : ((s.sadd k c).1).sets k = s.sets k ++ [c] := by
        unfold Store.sadd; rw [if_neg hc]; simp
      rw [newItems_cons, if_neg hc]
      show (if (s.sadd k c).2 ≠ 0 then c :: toPush rest (saddBatch (s.sadd k c).1 k rest).2
            else toPush rest (saddBatch (s.sadd k c).1 k rest).2) = _
      rw [h2, if_pos (by decide)]
      rw [ih (s.sadd k c).1, h3]

/-! ### The deduplicating loader -/

lemma pcdLoop_spec (bs : List (List String)) :
    ∀ (s : Store) (t : Nat),
      ((pcdLoop s t bs).1.lists "companies"
          = s.lists "companies" ++ newItems (s.sets "companies:set") bs.flatten)
      ∧ ((pcdLoop s t bs).1.sets "companies:set"
          = s.sets "companies:set" ++ newItems (s.sets "companies:set") bs.flatten)
      ∧ ((pcdLoop s t bs).2
          = t + (newItems (s.sets "companies:set") bs.flatten).length) := by
  induction bs with
  | nil => intro s t; simp [pcdLoop, newItems]
  | cons batch rest ih =>
    intro s t
    simp only [pcdLoop]
    have hS : ((saddBatch s "companies:set" batch).1).sets "companies:set"
        = s.sets "companies:set" ++ newItems (s.sets "companies:set") batch := by
      rw [saddBatch_sets, if_pos rfl]
    have htp : toPush batch (saddBatch s "companies:set" batch).2
        = newItems (s.sets "companies:set") batch := saddBatch_toPush _ _ s
    obtain ⟨ih1, ih2, ih3⟩ :=
      ih (rpushAll (saddBatch s "companies:set" batch).1 "companies"
            (toPush batch (saddBatch s "companies:set" batch).2))
        (t + (toPush batch (saddBatch s "companies:set" batch).2).length)
    rw [List.flatten_cons, newItems_append]
    refine ⟨?_, ?_, ?_⟩
    · rw [ih1, lists_rpushAll, if_pos rfl, saddBatch_lists, htp, sets_rpushAll, hS,
        List.append_assoc]
    · rw [ih2, sets_rpushAll, hS, List.append_assoc]
    · rw [ih3, sets_rpushAll, hS, htp]
      simp [Nat.add_assoc]

lemma pcd_spec (s : Store) (l : List String) (n : Int) :
    ((push_companies_deduped s l n).1.lists "companies" = newItems [] l)
    ∧ ((push_companies_deduped s l n).1.sets "companies:set" = newItems [] l)
    ∧ ((push_companies_deduped s l n).2 = (newItems [] l).length) := by
  unfold push_companies_deduped
  have h0 : ((s.del "companies").del "companies:set").lists "companies" = [] := by
    rw [lists_del, if_neg (by decide), lists_del, if_pos rfl]
  have h1 : ((s.del "companies").del "companies:set").sets "companies:set" = [] := by
    rw [sets_del, if_pos rfl]
  obtain ⟨p1, p2, p3⟩ := pcdLoop_spec (chunked l n) ((s.del "companies").del "companies:set") 0
  rw [chunked_flatten] at p1 p2 p3
  rw [h0] at p1
  rw [h1] at p1 p2 p3
  simp only [List.nil_append, Nat.zero_add] at p1 p2 p3
  exact ⟨p1, p2, p3⟩

/-! ### The two pure descriptions of first-occurrence deduplication -/

lemma firstOccurrences_eq_newItems_fuel :
    ∀ (n : Nat) (l : List String), l.length ≤ n → firstOccurrences l = newItems [] l := by
  intro n
  induction n with
  | zero =>
    intro l h
    have : l = [] := List.eq_nil_of_length_eq_zero (Nat.le_zero.mp h)
    subst this
    simp [firstOccurrences, newItems]
  | succ n ih =>
    intro l h
    match l with
    | [] => simp [firstOccurrences, newItems]
    | x :: rest =>
      rw [firstOccurrences]
      have hlen : (rest.filter fun y => decide (y ≠ x)).length ≤ n := by
        have := List.length_filter_le (fun y => decide (y ≠ x)) rest
        simp only [List.length_cons, Nat.succ_le_succ_iff] at h
        omega
      rw [ih _ hlen, newItems_cons, if_neg (List.not_mem_nil x), ← newItems_filter]

lemma firstOccurrences_eq_newItems (l : List String) :
    firstOccurrences l = newItems [] l :=
  firstOccurrences_eq_newItems_fuel l.length l (le_refl _)

lemma foldl_dictFromKeys (l : List String) :
    ∀ acc : List String,
      l.foldl (fun a x => if x ∈ a then a else a ++ [x]) acc = acc ++ newItems acc l := by
  induction l with
  | nil => intro acc; simp [newItems]
  | cons c rest ih =>
    intro acc
    by_cases hc : c ∈ acc
    · rw [List.foldl_cons, if_pos hc, ih, newItems_cons, if_pos hc]
    · rw [List.foldl_cons, if_neg hc, ih, newItems_cons, if_neg hc]
      simp [List.append_assoc]

lemma dictFromKeys_eq_newItems (l : List String) : dictFromKeys l = newItems [] l := by
  unfold dictFromKeys
  rw [foldl_dictFromKeys]
  simp

lemma dictFromKeys_eq_firstOccurrences (l : List String) :
    dictFromKeys l = firstOccurrences l := by
  rw [dictFromKeys_eq_newItems, firstOccurrences_eq_newItems]

/-! ### The plain loader -/

lemma push_institutions_fold (bs : List (List String)) :
    ∀ (s : Store) (t : Nat),
      ((bs.foldl (fun acc batch => (rpushAll acc.1 "institutions" batch, acc.2 + batch.length))
          (s, t)).1.lists "institutions" = s.lists "institutions" ++ bs.flatten)
      ∧ ((bs.foldl (fun acc batch => (rpushAll acc.1 "institutions" batch, acc.2 + batch.length))
          (s, t)).2 = t + bs.flatten.length) := by
  induction bs with
  | nil => intro s t; simp
  | cons batch rest ih =>
    intro s t
    rw [List.foldl_cons]
    obtain ⟨ih1, ih2⟩ := ih (rpushAll s "institutions" batch) (t + batch.length)
    rw [List.flatten_cons]
    constructor
    · rw [ih1, lists_rpushAll, if_pos rfl, List.append_assoc]
    · rw [ih2]
      simp [Nat.add_assoc]

lemma push_institutions_spec (s : Store) (l : List String) (n : Int) :
    ((push_institutions s l n).1.lists "institutions" = l)
    ∧ ((push_institutions s l n).2 = l.length) := by
  unfold push_institutions
  obtain ⟨p1, p2⟩ := push_institutions_fold (chunked l n) (s.del "institutions") 0
  rw [chunked_flatten] at p1 p2
  rw [lists_del, if_pos rfl, List.nil_append] at p1
  rw [Nat.zero_add] at p2
  exact ⟨p1, p2⟩

/-! ### The two JSON readers -/

lemma ijsonFieldItems_of_not_mem (key : String) (fields : List (String × Json))
    (h : key ∉ fields.map Prod.fst) : ijsonFieldItems key fields = [] := by
  induction fields with
  | nil => rfl
  | cons p rest ih =>
    obtain ⟨k, v⟩ := p
    simp only [List.map_cons, List.mem_cons, not_or] at h
    rw [ijsonFieldItems, if_neg (fun hk => h.1 hk.symm), ih h.2]
    rfl

lemma jsonObjGet_of_not_mem (key : String) (fields : List (String × Json))
    (h : key ∉ fields.map Prod.fst) : jsonObjGet key fields = none := by
  induction fields with
  | nil => rfl
  | cons p rest ih =>
    obtain ⟨k, v⟩ := p
    simp only [List.map_cons, List.mem_cons, not_or] at h
    rw [jsonObjGet, ih h.2, if_neg (fun hk => h.1 hk.symm)]

lemma readers_agree_obj (key : String) :
    ∀ fields : List (String × Json), (fields.map Prod.fst).Nodup →
      stream_array_with_ijson (Json.obj fields) key
        = load_list_from_json (Json.obj fields) key := by
  intro fields
  induction fields with
  | nil => intro _; rfl
  | cons p rest ih =>
    intro h
    obtain ⟨k, v⟩ := p
    simp only [List.map_cons, List.nodup_cons] at h
    obtain ⟨hk, hrest⟩ := h
    by_cases hkey : k = key
    · subst hkey
      have h2 : jsonObjGet k rest = none := jsonObjGet_of_not_mem k rest hk
      have h3 : jsonObjGet k ((k, v) :: rest) = some v := by
        rw [jsonObjGet, h2]
        simp
      simp only [stream_array_with_ijson, load_list_from_json, h3]
      rw [ijsonFieldItems, if_pos rfl, ijsonFieldItems_of_not_mem k rest hk, List.append_nil]
      cases v <;> rfl
    · have h3 : jsonObjGet key ((k, v) :: rest) = jsonObjGet key rest := by
        rw [jsonObjGet]
        cases hj : jsonObjGet key rest with
        | some w => rfl
        | none => simp [hkey]
      simp only [stream_array_with_ijson, load_list_from_json, h3] at ih ⊢
      rw [ijsonFieldItems, if_neg hkey, List.nil_append]
      exact ih hrest

/-! ### Claim theorems -/

/-- C1: the claim says that invoking the deduplicating loader twice against
the same key pair (companies, then institutions) appends every item exactly
once at its first occurrence, so that for the source document
`{"institution": ["A","B"], "companies": ["B","C"]}` the destination list
ends as `["B","C","A"]` and the second call returns 1.  The code does not do
this: `push_companies_deduped` deletes both keys at the start of every call,
so the second call erases the companies loaded by the first and rebuilds the
destination from the institutions alone, ending with `["A","B"]` and a
second-call count of 2. -/
theorem pop_double_dedup_overwrites :
    ((push_companies_deduped
        (push_companies_deduped Store.empty ["B", "C"] 1000).1 ["A", "B"] 1000).1.lists
          "companies" = ["A", "B"])
    ∧ ((push_companies_deduped
        (push_companies_deduped Store.empty ["B", "C"] 1000).1 ["A", "B"] 1000).2 = 2)
    ∧ (["A", "B"] : List String) ≠ ["B", "C", "A"] := by
  refine ⟨by decide, by decide, by decide⟩

/-- C2: a single call to `push_companies_deduped`, from any prior store state
and for any chunk size, leaves the `companies` list holding each distinct
input item exactly once, in first-occurrence order, and returns the number of
newly added distinct items (not the input length). -/
theorem push_companies_deduped_correct (s : Store) (l : List String) (n : Int) :
    ((push_companies_deduped s l n).1.lists "companies" = firstOccurrences l)
    ∧ (firstOccurrences l).Nodup
    ∧ (∀ x, x ∈ firstOccurrences l ↔ x ∈ l)
    ∧ ((push_companies_deduped s l n).2 = (firstOccurrences l).length) := by
  obtain ⟨p1, p2, p3⟩ := pcd_spec s l n
  have hfo := firstOccurrences_eq_newItems l
  refine ⟨by rw [p1, hfo], ?_, ?_, by rw [p3, hfo]⟩
  · rw [hfo]
    exact newItems_nodup l []
  · intro x
    rw [hfo, newItems_mem]
    simp

/-- C3: after any completed call to `push_companies_deduped`, from any prior
store state, the membership of the `companies:set` key is exactly the set of
elements of the `companies` list. -/
theorem companies_set_matches_companies_list (s : Store) (l : List String) (n : Int)
    (x : String) :
    x ∈ (push_companies_deduped s l n).1.sets "companies:set" ↔
      x ∈ (push_companies_deduped s l n).1.lists "companies" := by
  obtain ⟨p1, p2, _⟩ := pcd_spec s l n
  rw [p1, p2]

/-- C4: for every input sequence and chunk size `n ≥ 1`, flattening the
batches of `chunked` reproduces the input exactly, and every emitted batch
(the final partial one included) is non-empty with at most `n` elements. -/
theorem chunked_flatten_nonempty_bounded {α : Type} (l : List α) (n : Int) (h : 1 ≤ n) :
    ((chunked l n).flatten = l)
    ∧ ∀ b ∈ chunked l n, b ≠ [] ∧ (b.length : Int) ≤ n := by
  refine ⟨chunked_flatten l n, ?_⟩
  have h0 : ((([] : List α).length : Int) < n) := by
    simp only [List.length_nil, Int.ofNat_zero]
    omega
  exact fun b hb => chunkedAux_batches n l [] h0 b hb

/-- Witness for C4 at the concrete input `["a","b","c"]` with chunk size 2. -/
theorem chunked_flatten_nonempty_bounded_witness :
    (1 : Int) ≤ 2
    ∧ (((chunked ["a", "b", "c"] (2 : Int)).flatten = ["a", "b", "c"])
       ∧ ∀ b ∈ chunked ["a", "b", "c"] (2 : Int), b ≠ [] ∧ (b.length : Int) ≤ 2) :=
  ⟨by decide, chunked_flatten_nonempty_bounded ["a", "b", "c"] 2 (by decide)⟩

/-- C5 counterexample: the claim says a call with `size ≤ 0` is rejected with
a configuration error; in the code `chunked` raises nothing and runs the
generator normally, here returning the well-defined value `[["a"],["b"]]` for
size 0 on input `["a","b"]`. -/
theorem chunked_zero_size_returns_batches :
    chunked (["a", "b"] : List String) 0 = [["a"], ["b"]] := by decide

/-- C5 amended: calling the batcher with `size ≤ 0` is not rejected; the
generator runs normally and emits each input item as its own singleton
batch, for every input sequence. -/
theorem chunked_nonpositive_size_singletons (l : List String) (n : Int) (h : n ≤ 0) :
    chunked l n = l.map fun x => [x] :=
  chunkedAux_nonpos n h l

/-- Witness for the amended C5 at the concrete input `["x"]` with size -1. -/
theorem chunked_nonpositive_size_singletons_witness :
    (-1 : Int) ≤ 0 ∧ chunked ["x"] (-1 : Int) = [["x"]] :=
  ⟨by decide, chunked_nonpositive_size_singletons ["x"] (-1) (by decide)⟩

/-- C6: `push_institutions`, from any prior store state and for any chunk
size, leaves the `institutions` list equal to the input sequence exactly
(same length, same order, duplicates preserved) and returns the input
length.  That the destination is deleted first is reflected in the result
being independent of the prior store state. -/
theorem push_institutions_plain_load (s : Store) (l : List String) (n : Int) :
    ((push_institutions s l n).1.lists "institutions" = l)
    ∧ ((push_institutions s l n).2 = l.length) :=
  push_institutions_spec s l n

/-- C7: `count_objects_in_file` returns the array length for a top-level
array, 1 for a top-level object, 0 for any other JSON value, and 0 — along
with a reported error message — when the file cannot be read or parsed; it
is a total function, so it never raises. -/
theorem count_objects_in_file_cases :
    (∀ p e, ((count_objects_in_file p (Except.error e)).1 = 0)
      ∧ (count_objects_in_file p (Except.error e)).2 ≠ [])
    ∧ (∀ p xs, count_objects_in_file p (Except.ok (Json.arr xs)) = (xs.length, []))
    ∧ (∀ p fs, count_objects_in_file p (Except.ok (Json.obj fs)) = (1, []))
    ∧ (∀ p, count_objects_in_file p (Except.ok Json.null) = (0, []))
    ∧ (∀ p b, count_objects_in_file p (Except.ok (Json.bool b)) = (0, []))
    ∧ (∀ p m, count_objects_in_file p (Except.ok (Json.num m)) = (0, []))
    ∧ (∀ p t, count_objects_in_file p (Except.ok (Json.str t)) = (0, [])) := by
  refine ⟨fun p e => ⟨rfl, by simp [count_objects_in_file]⟩,
    fun p xs => rfl, fun p fs => rfl, fun p => rfl, fun p b => rfl,
    fun p m => rfl, fun p t => rfl⟩

/-- C8 counterexample: the claim says every entry point exits with a
non-zero status on a missing input file; `count.py`'s `main` prints the
message but then returns normally, so the process exit status is 0. -/
theorem count_main_missing_file_exits_zero :
    count_main_filecheck false "data.json"
      = some ⟨["File not found: data.json"], 0⟩ := rfl

/-- C8 amended: on a missing input file both entry points print a message,
but only the load script (`pop.py`) exits with a non-zero status (2, via
`SystemExit(2)`); the counter (`count.py`) returns normally with exit
status 0. -/
theorem missing_file_exit_statuses (p : String) :
    (pop_main_filecheck false p = some ⟨["Input file not found: " ++ p], 2⟩)
    ∧ (count_main_filecheck false p = some ⟨["File not found: " ++ p], 0⟩) :=
  ⟨rfl, rfl⟩

/-- C9: over any well-formed top-level object (its field names distinct, as
in a document of the form `{field: [...]}`) and any field name, the
streaming reader and the fallback reader yield the identical sequence of
items. -/
theorem readers_agree (fields : List (String × Json)) (key : String)
    (h : (fields.map Prod.fst).Nodup) :
    stream_array_with_ijson (Json.obj fields) key
      = load_list_from_json (Json.obj fields) key :=
  readers_agree_obj key fields h

/-- Witness for C9 at the concrete document
`{"institution": ["A","B"], "companies": ["B"]}` with field `institution`. -/
theorem readers_agree_witness :
    (([("institution", Json.arr [Json.str "A", Json.str "B"]),
       ("companies", Json.arr [Json.str "B"])].map Prod.fst).Nodup)
    ∧ stream_array_with_ijson
        (Json.obj [("institution", Json.arr [Json.str "A", Json.str "B"]),
                   ("companies", Json.arr [Json.str "B"])]) "institution"
      = load_list_from_json
          (Json.obj [("institution", Json.arr [Json.str "A", Json.str "B"]),
                     ("companies", Json.arr [Json.str "B"])]) "institution" :=
  ⟨by decide,
   readers_agree
     [("institution", Json.arr [Json.str "A", Json.str "B"]),
      ("companies", Json.arr [Json.str "B"])] "institution" (by decide)⟩

/-- C10: the `populate.py` script pushes, under the `companies` key, the
concatenation of companies followed by institutions with duplicates removed
at first occurrence, order preserved, and prints as company count the length
of that deduplicated merged list. -/
theorem populate_script_companies_merge (s : Store)
    (degrees institutions roles companies : List String) :
    ((populate_script s degrees institutions roles companies).store.lists "companies"
        = firstOccurrences (companies ++ institutions))
    ∧ ((populate_script s degrees institutions roles companies).printedCompanies
        = (firstOccurrences (companies ++ institutions)).length) := by
  simp only [populate_script]
  constructor
  · rw [lists_rpushAll, if_pos rfl]
    rw [lists_rpushAll, if_neg (by decide)]
    rw [lists_rpushAll, if_neg (by decide)]
    rw [lists_rpushAll, if_neg (by decide)]
    rw [lists_del, if_pos rfl, List.nil_append, dictFromKeys_eq_firstOccurrences]
  · rw [dictFromKeys_eq_firstOccurrences]
